import Mathlib

/-!
Verification of the Hodos graph-construction-and-traversal framework.

The Rust sources are shallowly embedded:
* machine floats (`f64` costs/weights) are modelled by `Rat`: every property
  at stake concerns order comparisons and exact propagation of computed
  values, never rounding, and `f64::total_cmp` on the non-NaN range agrees
  with the numeric order;
* `HashMap` is modelled by an association list with last-write-wins
  insertion (a deterministic refinement of the map contract);
* Rust `std::collections::BinaryHeap` (external library, not repository
  code) is modelled by its documented contract: `push` adds an item, `pop`
  removes a greatest item under the item ordering, ties arbitrary;
* stateful trait objects (frontiers, visitors, samplers, mutating
  policies) become explicit state machines; `&mut self` methods return the
  new state;
* where a claim is about which calls happen and in which order, the state
  machine additionally records a ghost log of call events; the log is
  write-only instrumentation and never feeds back into behaviour.
-/

namespace Hodos

/-- Association-list lookup, first binding wins (models `HashMap::get`). -/
def lookupA (k : Nat) : List (Nat × α) → Option α
  | [] => none
  | (k2, v) :: rest => if k2 = k then some v else lookupA k rest

/-- Association-list insert with last-write-wins semantics
(models `HashMap::insert`). -/
def insertA (k : Nat) (v : α) : List (Nat × α) → List (Nat × α)
  | [] => [(k, v)]
  | (k2, v2) :: rest => if k2 = k then (k, v) :: rest else (k2, v2) :: insertA k v rest

theorem lookupA_insertA_self (k : Nat) (v : α) (l : List (Nat × α)) :
    lookupA k (insertA k v l) = some v := by
  induction l with
  | nil => simp [insertA, lookupA]
  | cons hd tl ih =>
    obtain ⟨k2, v2⟩ := hd
    by_cases h : k2 = k <;> simp [insertA, lookupA, h, ih]

theorem lookupA_insertA_ne (k k2 : Nat) (v : α) (l : List (Nat × α)) (h : k2 ≠ k) :
    lookupA k2 (insertA k v l) = lookupA k2 l := by
  have h5 : k ≠ k2 := Ne.symm h
  induction l with
  | nil => simp [insertA, lookupA, h5]
  | cons hd tl ih =>
    obtain ⟨k3, v3⟩ := hd
    by_cases h3 : k3 = k
    · subst h3
      simp [insertA, lookupA, h5]
    · by_cases h4 : k3 = k2 <;> simp [insertA, lookupA, h3, h4, h, ih]

/-! ## Graph data model (src/graph/graph.rs)

`Graph<TNode, TEdge>` holds `nodes: HashMap<u32, TNode>` and
`edges: HashMap<u32, Vec<TEdge>>`.  The node/edge traits are abstracted by
explicit projection functions `nodeId : N → Nat`, `edgeFrom edgeTo : E → Nat`. -/

structure RGraph (N E : Type) where
  nodes : List (Nat × N)
  edges : List (Nat × List E)
deriving Repr

/-- Empty graph (`Graph::new`). -/
def emptyRG : RGraph N E := ⟨[], []⟩

/-- Rust `Graph::add_node`: `self.nodes.insert(node.id(), node)`. -/
def addNode (nodeId : N → Nat) (g : RGraph N E) (n : N) : RGraph N E :=
  { g with nodes := insertA (nodeId n) n g.nodes }

/-- Append an edge to the adjacency entry of key `k`, creating the entry if
absent (models `self.edges.entry(from).or_insert_with(Vec::new).push(edge)`). -/
def pushEntry (k : Nat) (e : E) : List (Nat × List E) → List (Nat × List E)
  | [] => [(k, [e])]
  | (k2, l) :: rest =>
    if k2 = k then (k2, l ++ [e]) :: rest else (k2, l) :: pushEntry k e rest

/-- Rust `Graph::add_edge`. -/
def addEdge (edgeFrom : E → Nat) (g : RGraph N E) (e : E) : RGraph N E :=
  { g with edges := pushEntry (edgeFrom e) e g.edges }

/-- Adjacency list of a source id, `[]` when the entry is absent. -/
def adjList (g : RGraph N E) (k : Nat) : List E :=
  (lookupA k g.edges).getD []

/-- Rust `Graph::get_edges`: all edges, grouped by source key in store order
(`self.edges.values().flatten().collect()`). -/
def getEdges (g : RGraph N E) : List E :=
  (g.edges.map Prod.snd).flatten

/-! ## Policy algebra (src/policy/mod.rs, src/policy/composite.rs)

`Composite<P1, P2>` is the enum `{And(P1, P2), Or(P1, P2)}` and `Not<P>` a
unary wrapper; the `Policy` trait's pure query `is_compliant(&self, entity,
ctx) -> bool` is implemented on composites by Rust `&&` / `||` / `!` over the
children's answers.  Read-only policies are pure functions, so the policy
expression tree is the natural embedding of the nested generic types. -/

inductive PolicyExpr (E C : Type) where
  | leaf (f : E → C → Bool)
  | and (p1 p2 : PolicyExpr E C)
  | or (p1 p2 : PolicyExpr E C)
  | nott (p : PolicyExpr E C)

/-- Rust `is_compliant` recursion over the composite tree
(`impl Policy for Composite` / `impl Policy for Not`). -/
def isCompliant : PolicyExpr E C → E → C → Bool
  | .leaf f, e, c => f e c
  | .and p1 p2, e, c => isCompliant p1 e c && isCompliant p2 e c
  | .or p1 p2, e, c => isCompliant p1 e c || isCompliant p2 e c
  | .nott p, e, c => !(isCompliant p e c)

/-- Rust preset `AllowAll::is_compliant`: always `true`
(src/preset/policies/value/allow_all.rs). -/
def allowAllP : PolicyExpr E C := .leaf (fun _ _ => true)

/-- Rust preset `DenyAll::is_compliant`: always `false`
(src/preset/policies/value/deny_all.rs). -/
def denyAllP : PolicyExpr E C := .leaf (fun _ _ => false)

/-- C5: for every entity and context (the context being a graph, as in the
Rust impls), `And(AllowAll, DenyAll)` is compliant with nothing,
`Or(AllowAll, DenyAll)` is compliant with everything, and `Not(DenyAll)`
answers exactly as `AllowAll`. -/
theorem c5_policy_algebra (N Et E : Type) (e : E) (g : RGraph N Et) :
    isCompliant (.and allowAllP denyAllP) e g = false ∧
    isCompliant (.or allowAllP denyAllP) e g = true ∧
    isCompliant (.nott denyAllP) e g = isCompliant allowAllP e g := by
  refine ⟨?_, ?_, ?_⟩ <;> rfl

/-! ## Mutating composites (src/policy/authorize.rs)

The `Authorize` trait's `add(&mut self, entity, ctx) -> bool` mutates the
policy.  `impl Authorize for Composite` evaluates `p1.add(..) && p2.add(..)`
(resp. `||`); Rust's `&&`/`||` short-circuit, so the second child's `add` is
called only when the first child's answer does not already decide the
result.  A child policy is a state machine; the composite's evaluation
returns the answer, both child states, and a ghost list of which children
were invoked (in invocation order). -/

structure AuthOps (σ E C : Type) where
  add : σ → E → C → Bool × σ

inductive CompKind where
  | and
  | or
deriving DecidableEq, Repr

inductive CompSide where
  | left
  | right
deriving DecidableEq, Repr

/-- Rust `Composite::{And,Or}` evaluation of `Authorize::add`, i.e.
`p1.add(entity, context) && p2.add(entity, context)` (resp. `||`) with
Rust's lazy boolean operators spelled out.  The third component is the
ghost invocation log. -/
def compositeAdd (k : CompKind) (p1 : AuthOps σ1 E C) (p2 : AuthOps σ2 E C)
    (s1 : σ1) (s2 : σ2) (e : E) (ctx : C) : Bool × (σ1 × σ2) × List CompSide :=
  match k with
  | .and =>
    let r1 := p1.add s1 e ctx
    if r1.1 then
      let r2 := p2.add s2 e ctx
      (r2.1, (r1.2, r2.2), [.left, .right])
    else
      (false, (r1.2, s2), [.left])
  | .or =>
    let r1 := p1.add s1 e ctx
    if r1.1 then
      (true, (r1.2, s2), [.left])
    else
      let r2 := p2.add s2 e ctx
      (r2.1, (r1.2, r2.2), [.left, .right])

/-- Rust preset `AuthBudget::add` (src/preset/policies/authorize/auth_budget.rs):
`if self.budget > 0 { self.budget -= 1; return true; } false`.  The state is
the remaining budget. -/
def authBudgetAdd (b : Nat) (_e : E) (_c : C) : Bool × Nat :=
  if b > 0 then (true, b - 1) else (false, b)

/-- `AuthBudget` packaged as an `Authorize` state machine. -/
def authBudgetOps (E C : Type) : AuthOps Nat E C := ⟨authBudgetAdd⟩

/-- C4 counterexample: `Composite::And(AuthBudget(0), AuthBudget(1))` on any
entity and context invokes only the left child — the right child is never
called and its budget stays 1, refuting "both child policies are always
invoked". -/
theorem c4_short_circuit_counterexample :
    (compositeAdd .and (authBudgetOps Unit Unit) (authBudgetOps Unit Unit)
        0 1 () ()).2.2 = [CompSide.left] ∧
    (compositeAdd .and (authBudgetOps Unit Unit) (authBudgetOps Unit Unit)
        0 1 () ()).2.1.2 = 1 := by
  exact ⟨rfl, rfl⟩

/-- C4 amended: evaluation of a composite `add` always invokes the left
child first; the right child is invoked exactly when the left answer does
not decide the composite (`And` with a `true` left answer, `Or` with a
`false` left answer); when the right child is skipped its state is
untouched. -/
theorem c4_composite_invocation (k : CompKind) (p1 : AuthOps σ1 E C)
    (p2 : AuthOps σ2 E C) (s1 : σ1) (s2 : σ2) (e : E) (ctx : C) :
    ((compositeAdd k p1 p2 s1 s2 e ctx).2.2.head? = some CompSide.left) ∧
    (CompSide.right ∈ (compositeAdd k p1 p2 s1 s2 e ctx).2.2 ↔
      ((k = .and ∧ (p1.add s1 e ctx).1 = true) ∨
       (k = .or ∧ (p1.add s1 e ctx).1 = false))) ∧
    (CompSide.right ∉ (compositeAdd k p1 p2 s1 s2 e ctx).2.2 →
      (compositeAdd k p1 p2 s1 s2 e ctx).2.1.2 = s2) := by
  cases k <;> by_cases h : (p1.add s1 e ctx).1 <;>
    simp [compositeAdd, h]

/-- C4 witness: the invocation characterization applied to the concrete
budget composite of the counterexample. -/
theorem c4_composite_invocation_witness :
    (compositeAdd .and (authBudgetOps Unit Unit) (authBudgetOps Unit Unit)
        0 1 () ()).2.1.2 = 1 :=
  (c4_composite_invocation .and (authBudgetOps Unit Unit)
      (authBudgetOps Unit Unit) 0 1 () ()).2.2 (by decide)

/-! ## Budget policies (C9) -/

/-- Run `AuthBudget::add` over a sequence of admission calls, collecting the
answers in call order. -/
def runAuthBudget (b : Nat) : List (E × C) → List Bool × Nat
  | [] => ([], b)
  | (e, c) :: rest =>
    let r := authBudgetAdd b e c
    let rs := runAuthBudget r.2 rest
    (r.1 :: rs.1, rs.2)

/-- Rust preset `NodeBudget::is_compliant`
(src/preset/policies/budget/node_budget.rs):
`context.get_nodes().len() < self.budget` — a pure predicate on the context
graph's current node count, with no internal call counter. -/
def nodeBudgetIsCompliant (budget : Nat) (_e : E) (g : RGraph N Et) : Bool :=
  decide (g.nodes.length < budget)

/-- C9 counterexample: `NodeBudget::new(1)` evaluated twice against the same
empty context graph answers `true` both times, refuting "returns true for
exactly the first N calls … independent of the context graph's contents"
at N = 1 (the claimed behaviour would answer `[true, false]`). -/
theorem c9_node_budget_counterexample :
    (List.replicate 2 ((), (emptyRG : RGraph Unit Unit))).map
        (fun p => nodeBudgetIsCompliant 1 p.1 p.2) = [true, true] := by
  decide

/-- C9 amended, part one: `AuthBudget` with budget `N` answers `true` for
exactly the first `N` calls, in call order, and `false` afterwards,
whatever entity and context each call presents; part two: `NodeBudget`
carries no call history — its answer is a function of the context graph
alone, so repeating a call with the same context repeats the answer. -/
theorem c9_budget_policy (E C N2 Et : Type) (n : Nat) (calls : List (E × C))
    (budget : Nat) (e : E) (g : RGraph N2 Et) (m : Nat) :
    (runAuthBudget n calls).1 =
      (List.range calls.length).map (fun i => decide (i < n)) ∧
    (List.replicate m (e, g)).map
        (fun p => nodeBudgetIsCompliant budget p.1 p.2) =
      List.replicate m (nodeBudgetIsCompliant budget e g) := by
  constructor
  · induction calls generalizing n with
    | nil => simp [runAuthBudget]
    | cons hd tl ih =>
      obtain ⟨e2, c2⟩ := hd
      by_cases h : n > 0
      · have : (List.range (tl.length + 1)).map (fun i => decide (i < n)) =
            decide (0 < n) :: (List.range tl.length).map
              (fun i => decide (i + 1 < n)) := by
          simp [List.range_succ_eq_map, Function.comp_def, Nat.succ_lt_succ_iff]
        simp only [runAuthBudget, authBudgetAdd, if_pos h, List.length_cons, this, ih]
        congr 1
        · simp [h]
        · apply List.map_congr_left
          intro i _
          simp only [decide_eq_decide]
          omega
      · have hn : n = 0 := by omega
        subst hn
        simp [runAuthBudget, authBudgetAdd, ih, List.replicate_succ]
  · induction m with
    | zero => simp
    | succ m ih => simp [List.replicate_succ, ih]

/-! ## Priority-heap frontiers (src/frontier/min_heap.rs, max_heap.rs)

`MinHeapItem(f64, u32)` orders items by
`self.0.total_cmp(&other.0).reverse()`, `MaxHeapItem` by
`self.0.total_cmp(&other.0)`; both heaps store items in a
`std::collections::BinaryHeap`, whose contract (external library code,
modelled here) is: `push` adds an item and `pop` removes a greatest item
under the item ordering, ties arbitrary.  The model keeps the multiset of
items as a list — `push` conses, `popGreatest` extracts one maximal item. -/

structure HeapItem where
  cost : Rat
  hid : Nat
deriving DecidableEq, Repr

/-- Rust `MinHeapItem::cmp`: `self.0.total_cmp(&other.0).reverse()`. -/
def minItemCmp (a b : HeapItem) : Ordering := (compare a.cost b.cost).swap

/-- Rust `MaxHeapItem::cmp`: `self.0.total_cmp(&other.0)`. -/
def maxItemCmp (a b : HeapItem) : Ordering := compare a.cost b.cost

/-- Contract model of `BinaryHeap::pop`: remove a greatest item under
`cmp`, returning it with the remaining items; `none` on an empty heap
(where the Rust callers' `unwrap` would panic). -/
def popGreatest (cmp : α → α → Ordering) : List α → Option (α × List α)
  | [] => none
  | a :: rest =>
    match popGreatest cmp rest with
    | none => some (a, [])
    | some (m, rest2) =>
      match cmp a m with
      | .lt => some (m, a :: rest2)
      | _ => some (a, rest)

theorem popGreatest_cons (cmp : α → α → Ordering) (a : α) (l : List α) :
    popGreatest cmp (a :: l) =
      match popGreatest cmp l with
      | none => some (a, [])
      | some (m, rest2) =>
        match cmp a m with
        | .lt => some (m, a :: rest2)
        | _ => some (a, l) := rfl

/-- C6: a non-empty `MinHeap` (any list state, hence any state reachable by
pushes and pops) pops an item whose cost is a lower bound of all remaining
costs, and the remaining items are exactly the rest of the heap. -/
theorem c6_min_heap_pop_minimum (s : List HeapItem) (hne : s ≠ []) :
    ∃ it rest, popGreatest minItemCmp s = some (it, rest) ∧
      s.Perm (it :: rest) ∧ ∀ it2 ∈ rest, it.cost ≤ it2.cost := by
  induction s with
  | nil => exact absurd rfl hne
  | cons a tail ih =>
    match htl : tail with
    | [] =>
      exact ⟨a, [], by simp [popGreatest], List.Perm.refl _, by simp⟩
    | b :: tail2 =>
      obtain ⟨m, rest2, hpop, hperm, hmin⟩ := ih (by simp)
      by_cases hlt : minItemCmp a m = .lt
      · refine ⟨m, a :: rest2, ?_, ?_, ?_⟩
        · rw [popGreatest_cons, hpop]
          simp [hlt]
        · exact (hperm.cons a).trans (List.Perm.swap m a rest2)
        · intro it2 hit2
          rcases List.mem_cons.mp hit2 with h1 | h2
          · subst h1
            have hgt : compare it2.cost m.cost = .gt := by
              cases h2 : compare it2.cost m.cost <;>
                simp [minItemCmp, h2, Ordering.swap] at hlt ⊢
            exact le_of_lt (compare_gt_iff_gt.mp hgt)
          · exact hmin it2 h2
      · have ham : a.cost ≤ m.cost := by
          rcases hcmp2 : compare a.cost m.cost with h | h | h
          · exact le_of_lt (compare_lt_iff_lt.mp hcmp2)
          · exact le_of_eq (compare_eq_iff_eq.mp hcmp2)
          · exact absurd (by simp [minItemCmp, hcmp2, Ordering.swap]) hlt
        refine ⟨a, b :: tail2, ?_, List.Perm.refl _, ?_⟩
        · rw [popGreatest_cons, hpop]
          cases hcmp : minItemCmp a m
          · exact absurd hcmp hlt
          · simp [hcmp]
          · simp [hcmp]
        · intro it2 hit2
          have hmem : it2 ∈ m :: rest2 := hperm.mem_iff.mp hit2
          rcases List.mem_cons.mp hmem with h1 | h2
          · exact h1 ▸ ham
          · exact le_trans ham (hmin it2 h2)

/-- C6 witness: the pop-minimum theorem evaluated on a concrete heap built
by three pushes — the popped item has cost 1 and id 7, below the remaining
costs 3 and 2. -/
theorem c6_min_heap_pop_minimum_witness :
    ∃ it rest,
      popGreatest minItemCmp [⟨3, 5⟩, ⟨1, 7⟩, ⟨2, 9⟩] = some (it, rest) ∧
      List.Perm [⟨3, 5⟩, ⟨1, 7⟩, ⟨2, 9⟩] (it :: rest) ∧
      ∀ it2 ∈ rest, it.cost ≤ it2.cost :=
  c6_min_heap_pop_minimum [⟨3, 5⟩, ⟨1, 7⟩, ⟨2, 9⟩] (by decide)

/-! ## WeightedVisitor (src/preset/visitors/weighted_visitor.rs)

The visitor keeps `distances: HashMap<u32, f64>`.  Its three methods are
embedded below; a ghost `log` records every `should_explore` candidate cost
and every `visit` call, in call order, to let theorems speak about the
calls made so far.  Edges are the concrete weighted edges the visitor's
`Graph` context carries. -/

structure WEdge where
  efrom : Nat
  eto : Nat
  weight : Rat
deriving DecidableEq, Repr

/-- Ghost log entries: `cand f t c` for a `should_explore(f, t, _)` call
whose computed candidate cost was `c`; `visited t` for a `visit(t, _)`. -/
inductive WLog where
  | cand (f t : Nat) (c : Rat)
  | visited (t : Nat)
deriving DecidableEq, Repr

structure WeightedVisitor where
  distances : List (Nat × Rat)
  log : List WLog
deriving DecidableEq, Repr

/-- Fresh `WeightedVisitor::default()`. -/
def initWV : WeightedVisitor := ⟨[], []⟩

/-- Rust `WeightedVisitor::exploration_cost`: the stored distance of `from`
defaulting to 0.0 when absent, plus the weight of the first edge of
`get_edges()` matching `from → to`, defaulting to 0.0 when no edge
matches. -/
def explorationCost (v : WeightedVisitor) (f t : Nat) (g : RGraph N WEdge) : Rat :=
  let fromDist := (lookupA f v.distances).getD 0
  let edgeWeight :=
    (((getEdges g).find? (fun e => e.efrom == f && e.eto == t)).map WEdge.weight).getD 0
  fromDist + edgeWeight

/-- Rust `WeightedVisitor::should_explore`: compute the candidate cost; if
`to` has no stored distance, store the candidate and answer `true`; if the
candidate is strictly smaller than the stored distance, overwrite and
answer `true`; otherwise answer `false`.  The ghost log records the
candidate. -/
def shouldExploreW (v : WeightedVisitor) (f t : Nat) (g : RGraph N WEdge) :
    Bool × WeightedVisitor :=
  let newDist := explorationCost v f t g
  let lg := v.log ++ [WLog.cand f t newDist]
  match lookupA t v.distances with
  | none => (true, ⟨insertA t newDist v.distances, lg⟩)
  | some cur =>
    if newDist < cur then (true, ⟨insertA t newDist v.distances, lg⟩)
    else (false, ⟨v.distances, lg⟩)

/-- Rust `WeightedVisitor::visit`:
`self.distances.entry(node_id).or_insert(0.0)`. -/
def visitW (v : WeightedVisitor) (t : Nat) (_g : RGraph N WEdge) : WeightedVisitor :=
  let lg := v.log ++ [WLog.visited t]
  match lookupA t v.distances with
  | none => ⟨insertA t 0 v.distances, lg⟩
  | some _ => ⟨v.distances, lg⟩

/-- A sequence of calls into the visitor's mutating methods. -/
inductive WCall where
  | se (f t : Nat)
  | vis (t : Nat)
deriving DecidableEq, Repr

/-- Replay a call sequence against the visitor, in order. -/
def runW (g : RGraph N WEdge) : List WCall → WeightedVisitor → WeightedVisitor
  | [], v => v
  | .se f t :: rest, v => runW g rest (shouldExploreW v f t g).2
  | .vis t :: rest, v => runW g rest (visitW v t g)

/-- C10: `exploration_cost` on a `from` id with no stored distance and a
pair with no matching edge in the graph answers exactly 0 — the absent
distance defaults to 0.0 and the absent edge to weight 0.0, not to the
`Edge` trait's documented default weight of 1.0. -/
theorem c10_exploration_cost_defaults (N : Type) (v : WeightedVisitor)
    (g : RGraph N WEdge) (f t : Nat)
    (hdist : lookupA f v.distances = none)
    (hedge : ∀ e ∈ getEdges g, ¬(e.efrom = f ∧ e.eto = t)) :
    explorationCost v f t g = 0 := by
  have hfind : (getEdges g).find? (fun e => e.efrom == f && e.eto == t) = none := by
    rw [List.find?_eq_none]
    intro e he
    have := hedge e he
    simp only [Bool.and_eq_true, beq_iff_eq]
    tauto
  simp [explorationCost, hdist, hfind]

/-- C10 witness: the default-0 theorem evaluated on the fresh visitor and a
graph holding one unrelated edge. -/
theorem c10_exploration_cost_defaults_witness :
    explorationCost initWV 0 1
      (⟨[], [(7, [⟨7, 8, 5⟩])]⟩ : RGraph Unit WEdge) = 0 :=
  c10_exploration_cost_defaults Unit initWV ⟨[], [(7, [⟨7, 8, 5⟩])]⟩ 0 1
    (by decide) (by decide)

/-! ## Stored-distance characterization (C3)

Replaying only the ghost log reconstructs the stored distance of every id:
a first candidate is inserted as is, later candidates overwrite exactly
when strictly smaller (so the entry tracks the minimum), and a `visit`
inserts 0 only when the id has no entry yet. -/

/-- One ghost-log entry's effect on the reconstructed entry of id `t`. -/
def specStep (t : Nat) (acc : Option Rat) : WLog → Option Rat
  | .cand _ t2 c =>
    if t2 = t then
      match acc with
      | none => some c
      | some d => some (min d c)
    else acc
  | .visited t2 =>
    if t2 = t then
      match acc with
      | none => some 0
      | some d => some d
    else acc

/-- Reconstructed distance entry of id `t` from a ghost log. -/
def specDist (lg : List WLog) (t : Nat) : Option Rat := lg.foldl (specStep t) none

/-- Candidate costs computed by the `should_explore` calls that targeted
id `t`, in call order. -/
def candCosts (lg : List WLog) (t : Nat) : List Rat :=
  lg.filterMap fun e =>
    match e with
    | .cand _ t2 c => if t2 = t then some c else none
    | .visited _ => none

/-- True when no `visit(t)` call precedes the first `should_explore`
candidate for `t` in the log. -/
def noEarlyVisit (lg : List WLog) (t : Nat) : Bool :=
  match lg with
  | [] => true
  | .cand _ t2 _ :: rest => if t2 = t then true else noEarlyVisit rest t
  | .visited t2 :: rest => if t2 = t then false else noEarlyVisit rest t

/-- The invariant tying the visitor's real distance map to the ghost-log
reconstruction. -/
def WInv (v : WeightedVisitor) : Prop :=
  ∀ t, lookupA t v.distances = specDist v.log t

theorem specDist_append (lg : List WLog) (e : WLog) (t : Nat) :
    specDist (lg ++ [e]) t = specStep t (specDist lg t) e := by
  simp [specDist, List.foldl_append]

theorem shouldExploreW_eq_absent (v : WeightedVisitor) (f t : Nat)
    (g : RGraph N WEdge) (hcur : lookupA t v.distances = none) :
    (shouldExploreW v f t g).2 =
      ⟨insertA t (explorationCost v f t g) v.distances,
        v.log ++ [WLog.cand f t (explorationCost v f t g)]⟩ := by
  unfold shouldExploreW
  rw [hcur]

theorem shouldExploreW_eq_lt (v : WeightedVisitor) (f t : Nat)
    (g : RGraph N WEdge) (cur : Rat) (hcur : lookupA t v.distances = some cur)
    (hlt : explorationCost v f t g < cur) :
    (shouldExploreW v f t g).2 =
      ⟨insertA t (explorationCost v f t g) v.distances,
        v.log ++ [WLog.cand f t (explorationCost v f t g)]⟩ := by
  unfold shouldExploreW
  rw [hcur]
  simp [hlt]

theorem shouldExploreW_eq_ge (v : WeightedVisitor) (f t : Nat)
    (g : RGraph N WEdge) (cur : Rat) (hcur : lookupA t v.distances = some cur)
    (hlt : ¬explorationCost v f t g < cur) :
    (shouldExploreW v f t g).2 =
      ⟨v.distances, v.log ++ [WLog.cand f t (explorationCost v f t g)]⟩ := by
  unfold shouldExploreW
  rw [hcur]
  simp [hlt]

theorem visitW_eq_absent (v : WeightedVisitor) (t : Nat) (g : RGraph N WEdge)
    (hcur : lookupA t v.distances = none) :
    visitW v t g = ⟨insertA t 0 v.distances, v.log ++ [WLog.visited t]⟩ := by
  unfold visitW
  rw [hcur]

theorem visitW_eq_present (v : WeightedVisitor) (t : Nat) (g : RGraph N WEdge)
    (cur : Rat) (hcur : lookupA t v.distances = some cur) :
    visitW v t g = ⟨v.distances, v.log ++ [WLog.visited t]⟩ := by
  unfold visitW
  rw [hcur]

theorem winv_shouldExplore (v : WeightedVisitor) (f t : Nat)
    (g : RGraph N WEdge) (hv : WInv v) : WInv (shouldExploreW v f t g).2 := by
  intro t2
  by_cases ht : t = t2
  · subst ht
    cases hcur : lookupA t v.distances with
    | none =>
      rw [shouldExploreW_eq_absent v f t g hcur]
      simp only [specDist_append, specStep, lookupA_insertA_self,
        ← hv t, hcur]
      simp
    | some cur =>
      by_cases hlt : explorationCost v f t g < cur
      · rw [shouldExploreW_eq_lt v f t g cur hcur hlt]
        simp only [specDist_append, specStep, lookupA_insertA_self,
          ← hv t, hcur]
        simp [min_eq_right (le_of_lt hlt)]
      · rw [shouldExploreW_eq_ge v f t g cur hcur hlt]
        simp only [specDist_append, specStep, ← hv t, hcur]
        simp [min_eq_left (le_of_not_lt hlt)]
  · have hstep : ∀ acc, specStep t2 acc (WLog.cand f t (explorationCost v f t g)) = acc := by
      intro acc
      simp [specStep, ht]
    cases hcur : lookupA t v.distances with
    | none =>
      rw [shouldExploreW_eq_absent v f t g hcur]
      simp only [specDist_append, hstep, lookupA_insertA_ne _ _ _ _ (Ne.symm ht)]
      exact hv t2
    | some cur =>
      by_cases hlt : explorationCost v f t g < cur
      · rw [shouldExploreW_eq_lt v f t g cur hcur hlt]
        simp only [specDist_append, hstep, lookupA_insertA_ne _ _ _ _ (Ne.symm ht)]
        exact hv t2
      · rw [shouldExploreW_eq_ge v f t g cur hcur hlt]
        simp only [specDist_append, hstep]
        exact hv t2

theorem winv_visit (v : WeightedVisitor) (t : Nat) (g : RGraph N WEdge)
    (hv : WInv v) : WInv (visitW v t g) := by
  intro t2
  by_cases ht : t = t2
  · subst ht
    cases hcur : lookupA t v.distances with
    | none =>
      rw [visitW_eq_absent v t g hcur]
      simp only [specDist_append, specStep, lookupA_insertA_self,
        ← hv t, hcur]
      simp
    | some cur =>
      rw [visitW_eq_present v t g cur hcur]
      simp only [specDist_append, specStep, ← hv t, hcur]
      simp
  · have hstep : ∀ acc, specStep t2 acc (WLog.visited t) = acc := by
      intro acc
      simp [specStep, ht]
    cases hcur : lookupA t v.distances with
    | none =>
      rw [visitW_eq_absent v t g hcur]
      simp only [specDist_append, hstep, lookupA_insertA_ne _ _ _ _ (Ne.symm ht)]
      exact hv t2
    | some cur =>
      rw [visitW_eq_present v t g cur hcur]
      simp only [specDist_append, hstep]
      exact hv t2

theorem winv_runW (g : RGraph N WEdge) (calls : List WCall)
    (v : WeightedVisitor) (hv : WInv v) : WInv (runW g calls v) := by
  induction calls generalizing v with
  | nil => exact hv
  | cons hd tl ih =>
    cases hd with
    | se f t => exact ih _ (winv_shouldExplore v f t g hv)
    | vis t => exact ih _ (winv_visit v t g hv)

theorem winv_initWV : WInv initWV := by
  intro t
  rfl

theorem foldl_min_le_init (d : Rat) (l : List Rat) : List.foldl min d l ≤ d := by
  induction l generalizing d with
  | nil => exact le_refl d
  | cons c cs ih => exact le_trans (ih (min d c)) (min_le_left d c)

theorem foldl_min_le_mem (d c : Rat) (l : List Rat) (h : c ∈ l) :
    List.foldl min d l ≤ c := by
  induction l generalizing d with
  | nil => cases h
  | cons c2 cs ih =>
    rw [List.foldl_cons]
    rcases List.mem_cons.mp h with h1 | h2
    · subst h1
      exact le_trans (foldl_min_le_init _ _) (min_le_right d c)
    · exact ih (min d c2) h2

theorem foldl_min_mem (d : Rat) (l : List Rat) :
    List.foldl min d l = d ∨ List.foldl min d l ∈ l := by
  induction l generalizing d with
  | nil => exact Or.inl rfl
  | cons c cs ih =>
    rw [List.foldl_cons]
    rcases ih (min d c) with h | h
    · rw [h]
      rcases le_total d c with hdc | hcd
      · exact Or.inl (min_eq_left hdc)
      · exact Or.inr (by rw [min_eq_right hcd]; exact List.mem_cons_self c cs)
    · exact Or.inr (List.mem_cons_of_mem c h)

theorem specDist_from_some (lg : List WLog) (t : Nat) (d : Rat) :
    lg.foldl (specStep t) (some d) = some (List.foldl min d (candCosts lg t)) := by
  induction lg generalizing d with
  | nil => simp [candCosts]
  | cons e rest ih =>
    cases e with
    | cand f t2 c =>
      by_cases ht : t2 = t
      · simp [specStep, ht, candCosts, ih]
      · simp [specStep, ht, candCosts, ih]
    | visited t2 =>
      by_cases ht : t2 = t <;> simp [specStep, ht, candCosts, ih]

theorem specDist_min (lg : List WLog) (t : Nat)
    (hearly : noEarlyVisit lg t = true) (hne : candCosts lg t ≠ []) :
    ∃ c cs, candCosts lg t = c :: cs ∧
      specDist lg t = some (List.foldl min c cs) := by
  induction lg with
  | nil => exact absurd rfl hne
  | cons e rest ih =>
    cases e with
    | cand f t2 c =>
      by_cases ht : t2 = t
      · refine ⟨c, candCosts rest t, ?_, ?_⟩
        · simp [candCosts, ht]
        · simp only [specDist, List.foldl_cons, specStep, if_pos ht]
          exact specDist_from_some rest t c
      · have h1 : candCosts (WLog.cand f t2 c :: rest) t = candCosts rest t := by
          simp [candCosts, ht]
        have h2 : noEarlyVisit rest t = true := by
          simpa [noEarlyVisit, ht] using hearly
        obtain ⟨c2, cs2, hc, hs⟩ := ih h2 (h1 ▸ hne)
        refine ⟨c2, cs2, h1 ▸ hc, ?_⟩
        simpa [specDist, specStep, ht] using hs
    | visited t2 =>
      by_cases ht : t2 = t
      · simp [noEarlyVisit, ht] at hearly
      · have h1 : candCosts (WLog.visited t2 :: rest) t = candCosts rest t := by
          simp [candCosts]
        have h2 : noEarlyVisit rest t = true := by
          simpa [noEarlyVisit, ht] using hearly
        obtain ⟨c2, cs2, hc, hs⟩ := ih h2 (h1 ▸ hne)
        refine ⟨c2, cs2, h1 ▸ hc, ?_⟩
        simpa [specDist, specStep, ht] using hs

/-- C3 amended: for any replayed call sequence and any id `to` on which
`visit` has been called, if at least one `should_explore` candidate for
`to` was computed and no `visit(to)` preceded the first such candidate,
then the stored distance of `to` equals the minimum of all candidate costs
computed so far (each candidate being the `exploration_cost` value —
stored distance of `from` at call time, defaulting to 0, plus the matching
edge weight).  The proviso is forced by `visit`'s `or_insert(0.0)`: a
`visit(to)` arriving before any candidate seeds the entry with 0, which
later candidates can only undercut. -/
theorem c3_weighted_distance_min (N : Type) (g : RGraph N WEdge)
    (calls : List WCall) (t : Nat)
    (_hvis : WCall.vis t ∈ calls)
    (hne : candCosts (runW g calls initWV).log t ≠ [])
    (hearly : noEarlyVisit (runW g calls initWV).log t = true) :
    ∃ d, lookupA t (runW g calls initWV).distances = some d ∧
      d ∈ candCosts (runW g calls initWV).log t ∧
      ∀ c ∈ candCosts (runW g calls initWV).log t, d ≤ c := by
  obtain ⟨c, cs, hc, hs⟩ := specDist_min _ t hearly hne
  have hinv := winv_runW g calls initWV winv_initWV t
  refine ⟨List.foldl min c cs, by rw [hinv, hs], ?_, ?_⟩
  · rw [hc]
    rcases foldl_min_mem c cs with h | h
    · rw [h]
      exact List.mem_cons_self c cs
    · exact List.mem_cons_of_mem c h
  · intro c2 hc2
    rw [hc] at hc2
    rcases List.mem_cons.mp hc2 with h | h
    · exact h ▸ foldl_min_le_init c cs
    · exact foldl_min_le_mem c c2 cs h

/-- C3 witness: on the graph with the single edge `0 → 1` of weight 3 and
the call sequence `should_explore(0, 1)` then `visit(1)`, the stored
distance of node 1 is the minimum (namely 3) of the one candidate. -/
theorem c3_weighted_distance_min_witness :
    ∃ d, lookupA 1 (runW (⟨[], [(0, [⟨0, 1, 3⟩])]⟩ : RGraph Unit WEdge)
        [WCall.se 0 1, WCall.vis 1] initWV).distances = some d ∧
      d ∈ candCosts (runW (⟨[], [(0, [⟨0, 1, 3⟩])]⟩ : RGraph Unit WEdge)
        [WCall.se 0 1, WCall.vis 1] initWV).log 1 ∧
      ∀ c ∈ candCosts (runW (⟨[], [(0, [⟨0, 1, 3⟩])]⟩ : RGraph Unit WEdge)
        [WCall.se 0 1, WCall.vis 1] initWV).log 1, d ≤ c :=
  c3_weighted_distance_min Unit ⟨[], [(0, [⟨0, 1, 3⟩])]⟩
    [WCall.se 0 1, WCall.vis 1] 1 (by decide) (by decide) (by decide)

/-! ## Traversal engine (src/graph/graph.rs, Graph::traverse)

The engine is generic over a frontier (trait methods `push`, `pop`,
`is_empty`) and a visitor (the five-method contract).  The Rust loop:
push the start id with `init_cost`; while the frontier is non-empty, pop
(`break` on `None`); `break` if the popped id has no adjacency entry;
otherwise run `should_explore`/conditional `push` over its edges, `visit`
it, and `break` if `should_stop`.  The loop may run forever, so it is
embedded with a fuel parameter; every theorem quantifies over the fuel.
A ghost trace records each `pop` call (with the frontier state at the
preceding `is_empty` check) and each `visit` call. -/

structure FrontierOps (σ : Type) where
  push : σ → Nat → Rat → σ
  pop : σ → Option Nat × σ
  isEmpty : σ → Bool

structure VisitorOps (ν G : Type) where
  initCost : ν → Nat → G → Rat
  explorationCost : ν → Nat → Nat → G → Rat
  shouldExplore : ν → Nat → Nat → G → Bool × ν
  visit : ν → Nat → G → ν
  shouldStop : ν → Nat → G → Bool

inductive TEv (σ : Type) where
  | popCall (s : σ) (res : Option Nat)
  | visitEv (id : Nat)
deriving DecidableEq

/-- Body of the Rust `for edge in edges` loop: ask `should_explore` on each
edge and push the target with `exploration_cost` when allowed. -/
def exploreEdges (F : FrontierOps σ) (V : VisitorOps ν (RGraph N E))
    (g : RGraph N E) (efrom eto : E → Nat) :
    List E → σ → ν → σ × ν
  | [], s, v => (s, v)
  | e :: rest, s, v =>
    let r := V.shouldExplore v (efrom e) (eto e) g
    let s2 :=
      if r.1 then F.push s (eto e) (V.explorationCost r.2 (efrom e) (eto e) g)
      else s
    exploreEdges F V g efrom eto rest s2 r.2

/-- The Rust `while !frontier.is_empty()` loop of `Graph::traverse`,
returning the final frontier state, the final visitor state and the ghost
trace of pop/visit calls. -/
def traverseLoop (F : FrontierOps σ) (V : VisitorOps ν (RGraph N E))
    (g : RGraph N E) (efrom eto : E → Nat) :
    Nat → σ → ν → σ × ν × List (TEv σ)
  | 0, s, v => (s, v, [])
  | fuel + 1, s, v =>
    if F.isEmpty s then (s, v, [])
    else
      match F.pop s with
      | (none, s2) => (s2, v, [TEv.popCall s none])
      | (some cid, s2) =>
        match lookupA cid g.edges with
        | none => (s2, v, [TEv.popCall s (some cid)])
        | some es =>
          let sv := exploreEdges F V g efrom eto es s2 v
          let v2 := V.visit sv.2 cid g
          if V.shouldStop v2 cid g then
            (sv.1, v2, [TEv.popCall s (some cid), TEv.visitEv cid])
          else
            let r := traverseLoop F V g efrom eto fuel sv.1 v2
            (r.1, r.2.1, TEv.popCall s (some cid) :: TEv.visitEv cid :: r.2.2)

/-- Rust `Graph::traverse`: seed the frontier with the start id at
`init_cost`, then run the loop. -/
def traverse (F : FrontierOps σ) (V : VisitorOps ν (RGraph N E))
    (g : RGraph N E) (efrom eto : E → Nat) (start fuel : Nat)
    (s0 : σ) (v0 : ν) : σ × ν × List (TEv σ) :=
  traverseLoop F V g efrom eto fuel (F.push s0 start (V.initCost v0 start g)) v0

/-- Ids returned by the pop calls of a trace, in order. -/
def poppedIds : List (TEv σ) → List Nat
  | [] => []
  | .popCall _ (some i) :: r => i :: poppedIds r
  | .popCall _ none :: r => poppedIds r
  | .visitEv _ :: r => poppedIds r

/-- Ids passed to the visit calls of a trace, in order. -/
def visitIds : List (TEv σ) → List Nat
  | [] => []
  | .visitEv i :: r => i :: visitIds r
  | .popCall _ _ :: r => visitIds r

theorem traverseLoop_visit_filter (F : FrontierOps σ)
    (V : VisitorOps ν (RGraph N E)) (g : RGraph N E) (efrom eto : E → Nat)
    (fuel : Nat) (s : σ) (v : ν) :
    visitIds (traverseLoop F V g efrom eto fuel s v).2.2 =
      (poppedIds (traverseLoop F V g efrom eto fuel s v).2.2).filter
        (fun i => (lookupA i g.edges).isSome) := by
  induction fuel generalizing s v with
  | zero => rfl
  | succ fuel ih =>
    rw [traverseLoop]
    by_cases he : F.isEmpty s
    · simp [he, poppedIds, visitIds]
    · simp only [he, Bool.false_eq_true, if_false]
      rcases hp : F.pop s with ⟨r, s2⟩
      cases r with
      | none => simp [poppedIds, visitIds]
      | some cid =>
        cases hl : lookupA cid g.edges with
        | none => simp [poppedIds, visitIds, List.filter, hl]
        | some es =>
          by_cases hstop : V.shouldStop
              (V.visit (exploreEdges F V g efrom eto es s2 v).2 cid g) cid g
          · simp [hstop, poppedIds, visitIds, List.filter, hl]
          · simp [hstop, poppedIds, visitIds, List.filter, hl, ih]

/-- C1 corrected: in any traversal, the visited ids are exactly the popped
ids that have an adjacency entry, in order — each such pop is followed by
exactly one `visit` of the popped id, while a popped id with no adjacency
entry is never visited (the loop breaks before the `visit` call). -/
theorem c1_visit_per_pop (σ ν N E : Type) (F : FrontierOps σ)
    (V : VisitorOps ν (RGraph N E)) (g : RGraph N E) (efrom eto : E → Nat)
    (start fuel : Nat) (s0 : σ) (v0 : ν) :
    visitIds (traverse F V g efrom eto start fuel s0 v0).2.2 =
      (poppedIds (traverse F V g efrom eto start fuel s0 v0).2.2).filter
        (fun i => (lookupA i g.edges).isSome) :=
  traverseLoop_visit_filter F V g efrom eto fuel _ v0

/-- The `WeightedVisitor` plugged into the visitor contract: `init_cost`
and `should_stop` keep the trait defaults (0.0 and `false`),
`exploration_cost`, `should_explore` and `visit` are the overrides. -/
def weightedVisitorOps (N : Type) : VisitorOps WeightedVisitor (RGraph N WEdge) where
  initCost := fun _ _ _ => 0
  explorationCost := fun v f t g => explorationCost v f t g
  shouldExplore := fun v f t g => shouldExploreW v f t g
  visit := fun v t g => visitW v t g
  shouldStop := fun _ _ _ => false

/-- Rust `BinaryHeap::push` as used by `MinHeap::push` / `MaxHeap::push`:
record the (cost, id) item. -/
def heapPush (s : List HeapItem) (i : Nat) (c : Rat) : List HeapItem :=
  ⟨c, i⟩ :: s

/-- Rust `MinHeap::pop`: `Some(self.opened.pop().unwrap().1)`.  The `none`
branch is where the `unwrap` would panic on an empty heap. -/
def minHeapPop (s : List HeapItem) : Option Nat × List HeapItem :=
  match popGreatest minItemCmp s with
  | none => (none, s)
  | some (it, rest) => (some it.hid, rest)

/-- Rust `MaxHeap::pop`, same shape as `MinHeap::pop`. -/
def maxHeapPop (s : List HeapItem) : Option Nat × List HeapItem :=
  match popGreatest maxItemCmp s with
  | none => (none, s)
  | some (it, rest) => (some it.hid, rest)

def minHeapOps : FrontierOps (List HeapItem) :=
  ⟨heapPush, minHeapPop, fun s => s.isEmpty⟩

def maxHeapOps : FrontierOps (List HeapItem) :=
  ⟨heapPush, maxHeapPop, fun s => s.isEmpty⟩

/-- C1 counterexample: traversing the empty graph (so the start id has no
adjacency entry) from start id 0 with the `MaxHeap` frontier and the
`WeightedVisitor` pops id 0 but never visits it — a popped id receiving
zero `visit` calls, refuting "a popped id is … never skipped". -/
theorem c1_counterexample :
    poppedIds (traverse maxHeapOps (weightedVisitorOps Unit)
      (emptyRG : RGraph Unit WEdge) WEdge.efrom WEdge.eto 0 5 [] initWV).2.2 =
      [0] ∧
    visitIds (traverse maxHeapOps (weightedVisitorOps Unit)
      (emptyRG : RGraph Unit WEdge) WEdge.efrom WEdge.eto 0 5 [] initWV).2.2 =
      [] := by
  decide

theorem traverseLoop_popCall_checked (F : FrontierOps σ)
    (V : VisitorOps ν (RGraph N E)) (g : RGraph N E) (efrom eto : E → Nat)
    (fuel : Nat) (s : σ) (v : ν) (s2 : σ) (r : Option Nat)
    (hmem : TEv.popCall s2 r ∈ (traverseLoop F V g efrom eto fuel s v).2.2) :
    F.isEmpty s2 = false := by
  induction fuel generalizing s v with
  | zero => cases hmem
  | succ fuel ih =>
    rw [traverseLoop] at hmem
    by_cases he : F.isEmpty s
    · simp [he] at hmem
    · simp only [he, Bool.false_eq_true, if_false] at hmem
      rcases hp : F.pop s with ⟨rr, ss⟩
      cases rr with
      | none =>
        simp only [hp, List.mem_singleton, TEv.popCall.injEq] at hmem
        rw [hmem.1]
        simpa using he
      | some cid =>
        cases hl : lookupA cid g.edges with
        | none =>
          simp only [hp, hl, List.mem_singleton, TEv.popCall.injEq] at hmem
          rw [hmem.1]
          simpa using he
        | some es =>
          by_cases hstop : V.shouldStop
              (V.visit (exploreEdges F V g efrom eto es ss v).2 cid g) cid g
          · simp only [hp, hl, hstop, if_true, List.mem_cons,
              List.mem_singleton, TEv.popCall.injEq] at hmem
            rcases hmem with h1 | h1
            · rw [h1.1]
              simpa using he
            · exact absurd h1 (by simp)
          · simp only [hp, hl, hstop, Bool.false_eq_true, if_false,
              List.mem_cons, TEv.popCall.injEq] at hmem
            rcases hmem with h1 | h1 | h1
            · rw [h1.1]
              simpa using he
            · exact absurd h1 (by simp)
            · exact ih _ _ h1

/-- C7: every `pop` call performed by `traverse` happens on a frontier
state whose `is_empty` check just answered `false`; and on both heap
frontiers a non-empty state makes the underlying `BinaryHeap::pop` return
`Some`, so the `unwrap` inside `MinHeap::pop` / `MaxHeap::pop` (the only
panic site) cannot fire during a traversal. -/
theorem c7_no_empty_pop :
    (∀ (σ ν N E : Type) (F : FrontierOps σ) (V : VisitorOps ν (RGraph N E))
        (g : RGraph N E) (efrom eto : E → Nat) (start fuel : Nat)
        (s0 : σ) (v0 : ν) (s2 : σ) (r : Option Nat),
        TEv.popCall s2 r ∈ (traverse F V g efrom eto start fuel s0 v0).2.2 →
        F.isEmpty s2 = false) ∧
    (∀ s : List HeapItem, s.isEmpty = false →
        (popGreatest minItemCmp s).isSome = true) ∧
    (∀ s : List HeapItem, s.isEmpty = false →
        (popGreatest maxItemCmp s).isSome = true) := by
  refine ⟨?_, ?_, ?_⟩
  · intro σ ν N E F V g efrom eto start fuel s0 v0 s2 r hmem
    exact traverseLoop_popCall_checked F V g efrom eto fuel _ v0 s2 r hmem
  · intro s hs
    cases s with
    | nil => simp at hs
    | cons a rest =>
      rw [popGreatest_cons]
      rcases popGreatest minItemCmp rest with _ | ⟨m, r2⟩
      · simp
      · cases h3 : minItemCmp a m <;> simp [h3]
  · intro s hs
    cases s with
    | nil => simp at hs
    | cons a rest =>
      rw [popGreatest_cons]
      rcases popGreatest maxItemCmp rest with _ | ⟨m, r2⟩
      · simp
      · cases h3 : maxItemCmp a m <;> simp [h3]

/-- C7 witness: the guarantee applied to the concrete one-pop traversal of
the empty graph (the pop call recorded there operated on a non-empty
frontier) and to a concrete non-empty heap for each heap kind. -/
theorem c7_no_empty_pop_witness :
    maxHeapOps.isEmpty (heapPush [] 0 0) = false ∧
    (popGreatest minItemCmp [⟨2, 4⟩]).isSome = true ∧
    (popGreatest maxItemCmp [⟨2, 4⟩]).isSome = true :=
  ⟨c7_no_empty_pop.1 (List HeapItem) WeightedVisitor Unit WEdge maxHeapOps
      (weightedVisitorOps Unit) emptyRG WEdge.efrom WEdge.eto 0 5 [] initWV
      (heapPush [] 0 0) (some 0) (by decide),
    c7_no_empty_pop.2.1 [⟨2, 4⟩] (by decide),
    c7_no_empty_pop.2.2 [⟨2, 4⟩] (by decide)⟩

/-- C8: when the start id has no entry in the edges map and the frontier
behaves as every fresh frontier does (after the initial push it reports
non-empty and pops the start id back), `traverse` terminates normally for
any sufficient fuel after exactly one pop and zero `visit` calls, and the
visitor comes back in its initial state — the initial push is the only
frontier interaction and nothing touches the visitor. -/
theorem c8_missing_start_silent (N E σ ν : Type) (g : RGraph N E)
    (F : FrontierOps σ) (V : VisitorOps ν (RGraph N E)) (efrom eto : E → Nat)
    (start fuel : Nat) (s0 : σ) (v0 : ν)
    (hstart : lookupA start g.edges = none)
    (hfuel : 1 ≤ fuel)
    (hne : F.isEmpty (F.push s0 start (V.initCost v0 start g)) = false)
    (hpop : (F.pop (F.push s0 start (V.initCost v0 start g))).1 = some start) :
    (traverse F V g efrom eto start fuel s0 v0).2.1 = v0 ∧
    visitIds (traverse F V g efrom eto start fuel s0 v0).2.2 = [] ∧
    (traverse F V g efrom eto start fuel s0 v0).2.2 =
      [TEv.popCall (F.push s0 start (V.initCost v0 start g)) (some start)] := by
  cases fuel with
  | zero => exact absurd hfuel (by omega)
  | succ fuel =>
    unfold traverse traverseLoop
    rcases hp : F.pop (F.push s0 start (V.initCost v0 start g)) with ⟨r, s2⟩
    rw [hp] at hpop
    simp only at hpop
    subst hpop
    simp [hne, hstart, visitIds]

/-- C8 witness: traversing the empty graph from id 0 with the fresh
`MaxHeap` frontier and the fresh `WeightedVisitor` leaves the visitor
untouched after a single visit-less pop. -/
theorem c8_missing_start_silent_witness :
    (traverse maxHeapOps (weightedVisitorOps Unit)
        (emptyRG : RGraph Unit WEdge) WEdge.efrom WEdge.eto 0 1 [] initWV).2.1 =
      initWV ∧
    visitIds (traverse maxHeapOps (weightedVisitorOps Unit)
        (emptyRG : RGraph Unit WEdge) WEdge.efrom WEdge.eto 0 1 [] initWV).2.2 =
      [] ∧
    (traverse maxHeapOps (weightedVisitorOps Unit)
        (emptyRG : RGraph Unit WEdge) WEdge.efrom WEdge.eto 0 1 [] initWV).2.2 =
      [TEv.popCall (maxHeapOps.push [] 0
        ((weightedVisitorOps Unit).initCost initWV 0 emptyRG)) (some 0)] :=
  c8_missing_start_silent Unit WEdge (List HeapItem) WeightedVisitor emptyRG
    maxHeapOps (weightedVisitorOps Unit) WEdge.efrom WEdge.eto 0 1 [] initWV
    (by decide) (by decide) (by decide) (by decide)

/-- C3 counterexample: a genuine Dijkstra-style traversal (MinHeap frontier,
WeightedVisitor) of the two-cycle `5 → 4 → 5` with both weights 1, started
at node 5.  At the end of the traversal `visit(5)` has been called, the
single `should_explore` candidate for node 5 had cost 2, yet the stored
distance of 5 is 0 (seeded by `visit`'s `or_insert(0.0)` on the start
node), so the stored distance differs from the minimum (2) of the
candidates — refuting the claimed equality. -/
theorem c3_counterexample :
    WLog.visited 5 ∈ (traverse minHeapOps (weightedVisitorOps Unit)
      (⟨[], [(5, [⟨5, 4, 1⟩]), (4, [⟨4, 5, 1⟩])]⟩ : RGraph Unit WEdge)
      WEdge.efrom WEdge.eto 5 10 [] initWV).2.1.log ∧
    lookupA 5 (traverse minHeapOps (weightedVisitorOps Unit)
      (⟨[], [(5, [⟨5, 4, 1⟩]), (4, [⟨4, 5, 1⟩])]⟩ : RGraph Unit WEdge)
      WEdge.efrom WEdge.eto 5 10 [] initWV).2.1.distances = some 0 ∧
    candCosts (traverse minHeapOps (weightedVisitorOps Unit)
      (⟨[], [(5, [⟨5, 4, 1⟩]), (4, [⟨4, 5, 1⟩])]⟩ : RGraph Unit WEdge)
      WEdge.efrom WEdge.eto 5 10 [] initWV).2.1.log 5 = [2] ∧
    (0 : Rat) ≠ 2 := by
  refine ⟨?_, ?_, ?_, ?_⟩ <;> with_unfolding_all decide

/-! ## GraphBuilder (src/builder/graph_builder.rs)

`GraphBuilder::build` starts from `Graph::new()` and an empty edge
buffer; while the sampler yields `Some((nodes, edges))` it runs the node
authorization policy on each sampled node against the graph built so far
(inserting the admitted ones) and appends all sampled edges to the
buffer; once the sampler is exhausted it runs the edge authorization
policy on each buffered edge against the current graph (now holding the
complete node set), inserting the admitted ones.  The policies here are
the builder's pure `Policy::apply(&self, entity, ctx)` form.  The sampler
is a state machine polled with the build context; the Rust `while let`
loop is embedded with fuel.  A ghost trace records every policy call with
the entity, the context graph passed, and the answer. -/

structure SamplerOps (σ Ctx N E : Type) where
  next : σ → Ctx → Option ((List N × List E) × σ)

inductive BEv (N E : Type) where
  | nodeCall (n : N) (ctx : RGraph N E) (res : Bool)
  | edgeCall (e : E) (ctx : RGraph N E) (res : Bool)

/-- Entity of a node-policy call event. -/
def BEv.nodeEnt : BEv N E → Option N
  | .nodeCall n _ _ => some n
  | .edgeCall _ _ _ => none

/-- Entity of an edge-policy call event. -/
def BEv.edgeEnt : BEv N E → Option E
  | .nodeCall _ _ _ => none
  | .edgeCall e _ _ => some e

/-- Context graph passed to the policy call. -/
def BEv.ctxOf : BEv N E → RGraph N E
  | .nodeCall _ c _ => c
  | .edgeCall _ c _ => c

/-- Entity of an edge-policy call that answered `true`. -/
def BEv.admittedEdge : BEv N E → Option E
  | .edgeCall e _ true => some e
  | .edgeCall _ _ false => none
  | .nodeCall _ _ _ => none

/-- Rust `for node in nodes { if apply(node, graph) { graph.add_node(node) } }`. -/
def admitNodes (nodeId : N → Nat) (nodeP : N → RGraph N E → Bool) :
    List N → RGraph N E → RGraph N E × List (BEv N E)
  | [], g => (g, [])
  | n :: rest, g =>
    let r := nodeP n g
    let g2 := if r then addNode nodeId g n else g
    let rr := admitNodes nodeId nodeP rest g2
    (rr.1, BEv.nodeCall n g r :: rr.2)

/-- The Rust `while let Some((nodes, edges)) = sampler.next(context)` loop:
admit nodes against the in-progress graph, extend the edge buffer. -/
def buildLoop (S : SamplerOps σ Ctx N E) (nodeId : N → Nat)
    (nodeP : N → RGraph N E → Bool) (ctx : Ctx) :
    Nat → σ → RGraph N E → RGraph N E × List E × List (BEv N E)
  | 0, _, g => (g, [], [])
  | fuel + 1, s, g =>
    match S.next s ctx with
    | none => (g, [], [])
    | some (sample, s2) =>
      let rn := admitNodes nodeId nodeP sample.1 g
      let rr := buildLoop S nodeId nodeP ctx fuel s2 rn.1
      (rr.1, sample.2 ++ rr.2.1, rn.2 ++ rr.2.2)

/-- Rust `for edge in edges_buffer { if apply(edge, graph) { graph.add_edge(edge) } }`. -/
def admitEdges (edgeFrom : E → Nat) (edgeP : E → RGraph N E → Bool) :
    List E → RGraph N E → RGraph N E × List (BEv N E)
  | [], g => (g, [])
  | e :: rest, g =>
    let r := edgeP e g
    let g2 := if r then addEdge edgeFrom g e else g
    let rr := admitEdges edgeFrom edgeP rest g2
    (rr.1, BEv.edgeCall e g r :: rr.2)

/-- Rust `GraphBuilder::build`: sampling/node phase from the empty graph,
then the edge phase over the buffered edges.  Returns the built graph and
the ghost trace of policy calls. -/
def build (S : SamplerOps σ Ctx N E) (nodeId : N → Nat) (edgeFrom : E → Nat)
    (nodeP : N → RGraph N E → Bool) (edgeP : E → RGraph N E → Bool)
    (ctx : Ctx) (fuel : Nat) (s0 : σ) : RGraph N E × List (BEv N E) :=
  let ph1 := buildLoop S nodeId nodeP ctx fuel s0 emptyRG
  let ph2 := admitEdges edgeFrom edgeP ph1.2.1 ph1.1
  (ph2.1, ph1.2.2 ++ ph2.2)

/-- The batches a sampler yields before exhaustion (or fuel runs out). -/
def sampleBatches (S : SamplerOps σ Ctx N E) (ctx : Ctx) :
    Nat → σ → List (List N × List E)
  | 0, _ => []
  | fuel + 1, s =>
    match S.next s ctx with
    | none => []
    | some (sample, s2) => sample :: sampleBatches S ctx fuel s2

/-- A list of events is a faithful node-admission pass from one graph to
another: each event records the policy called on its entity against
exactly the graph built so far, and the graph advances by inserting the
entity precisely when the policy answered `true`. -/
inductive NodeTrace (nodeId : N → Nat) (nodeP : N → RGraph N E → Bool) :
    RGraph N E → List (BEv N E) → RGraph N E → Prop
  | nil (g : RGraph N E) : NodeTrace nodeId nodeP g [] g
  | cons (n : N) (g : RGraph N E) (tr : List (BEv N E)) (g2 : RGraph N E) :
      NodeTrace nodeId nodeP (if nodeP n g then addNode nodeId g n else g) tr g2 →
      NodeTrace nodeId nodeP g (BEv.nodeCall n g (nodeP n g) :: tr) g2

/-- The edge-phase analogue of `NodeTrace`. -/
inductive EdgeTrace (edgeFrom : E → Nat) (edgeP : E → RGraph N E → Bool) :
    RGraph N E → List (BEv N E) → RGraph N E → Prop
  | nil (g : RGraph N E) : EdgeTrace edgeFrom edgeP g [] g
  | cons (e : E) (g : RGraph N E) (tr : List (BEv N E)) (g2 : RGraph N E) :
      EdgeTrace edgeFrom edgeP (if edgeP e g then addEdge edgeFrom g e else g) tr g2 →
      EdgeTrace edgeFrom edgeP g (BEv.edgeCall e g (edgeP e g) :: tr) g2

theorem nodeTrace_append (nodeId : N → Nat) (nodeP : N → RGraph N E → Bool)
    (g g2 g3 : RGraph N E) (t1 t2 : List (BEv N E))
    (h1 : NodeTrace nodeId nodeP g t1 g2) (h2 : NodeTrace nodeId nodeP g2 t2 g3) :
    NodeTrace nodeId nodeP g (t1 ++ t2) g3 := by
  induction h1 with
  | nil _ => exact h2
  | cons n g tr g4 htr ih => exact NodeTrace.cons n g _ g3 (ih h2)

theorem admitNodes_spec (nodeId : N → Nat) (nodeP : N → RGraph N E → Bool)
    (ns : List N) (g : RGraph N E) :
    NodeTrace nodeId nodeP g (admitNodes nodeId nodeP ns g).2
        (admitNodes nodeId nodeP ns g).1 ∧
    (admitNodes nodeId nodeP ns g).2.filterMap BEv.nodeEnt = ns ∧
    (admitNodes nodeId nodeP ns g).1.edges = g.edges := by
  induction ns generalizing g with
  | nil => exact ⟨NodeTrace.nil g, rfl, rfl⟩
  | cons n rest ih =>
    obtain ⟨iht, ihe, ihg⟩ := ih (if nodeP n g then addNode nodeId g n else g)
    refine ⟨NodeTrace.cons n g _ _ iht, ?_, ?_⟩
    · simp only [admitNodes, List.filterMap_cons, BEv.nodeEnt, ihe]
    · rw [show (admitNodes nodeId nodeP (n :: rest) g).1 =
          (admitNodes nodeId nodeP rest (if nodeP n g then addNode nodeId g n else g)).1
          from rfl, ihg]
      by_cases hr : nodeP n g <;> simp [hr, addNode]

theorem buildLoop_spec (S : SamplerOps σ Ctx N E) (nodeId : N → Nat)
    (nodeP : N → RGraph N E → Bool) (ctx : Ctx) (fuel : Nat) (s : σ)
    (g : RGraph N E) :
    NodeTrace nodeId nodeP g (buildLoop S nodeId nodeP ctx fuel s g).2.2
        (buildLoop S nodeId nodeP ctx fuel s g).1 ∧
    (buildLoop S nodeId nodeP ctx fuel s g).2.1 =
      ((sampleBatches S ctx fuel s).map Prod.snd).flatten ∧
    (buildLoop S nodeId nodeP ctx fuel s g).2.2.filterMap BEv.nodeEnt =
      ((sampleBatches S ctx fuel s).map Prod.fst).flatten ∧
    (buildLoop S nodeId nodeP ctx fuel s g).1.edges = g.edges := by
  induction fuel generalizing s g with
  | zero => exact ⟨NodeTrace.nil g, rfl, rfl, rfl⟩
  | succ fuel ih =>
    rcases hn : S.next s ctx with _ | ⟨sample, s2⟩
    · refine ⟨?_, ?_, ?_, ?_⟩
      · simp only [buildLoop, hn]
        exact NodeTrace.nil g
      · simp [buildLoop, sampleBatches, hn]
      · simp [buildLoop, sampleBatches, hn]
      · simp [buildLoop, hn]
    · obtain ⟨ant, ane, ang⟩ := admitNodes_spec nodeId nodeP sample.1 g
      obtain ⟨iht, ihb, ihe, ihg⟩ :=
        ih s2 (admitNodes nodeId nodeP sample.1 g).1
      refine ⟨?_, ?_, ?_, ?_⟩
      · simp only [buildLoop, hn]
        exact nodeTrace_append nodeId nodeP _ _ _ _ _ ant iht
      · simp only [buildLoop, sampleBatches, hn]
        simp [ihb]
      · simp only [buildLoop, sampleBatches, hn]
        simp [List.filterMap_append, ane, ihe]
      · simp only [buildLoop, hn]
        rw [ihg, ang]

theorem addEdge_nodes (edgeFrom : E → Nat) (g : RGraph N E) (e : E) :
    (addEdge edgeFrom g e).nodes = g.nodes := rfl

theorem lookupA_pushEntry_self (k : Nat) (e : E) (l : List (Nat × List E)) :
    lookupA k (pushEntry k e l) = some ((lookupA k l).getD [] ++ [e]) := by
  induction l with
  | nil => simp [pushEntry, lookupA]
  | cons hd tl ih =>
    obtain ⟨k2, es⟩ := hd
    by_cases h : k2 = k <;> simp [pushEntry, lookupA, h, ih]

theorem lookupA_pushEntry_ne (k k2 : Nat) (e : E) (l : List (Nat × List E))
    (h : k2 ≠ k) : lookupA k2 (pushEntry k e l) = lookupA k2 l := by
  induction l with
  | nil => simp [pushEntry, lookupA, Ne.symm h]
  | cons hd tl ih =>
    obtain ⟨k3, es⟩ := hd
    by_cases h3 : k3 = k
    · subst h3
      simp [pushEntry, lookupA, Ne.symm h]
    · by_cases h4 : k3 = k2 <;> simp [pushEntry, lookupA, h3, h4, h, ih]

theorem adjList_addEdge (edgeFrom : E → Nat) (g : RGraph N E) (e : E) (f : Nat) :
    adjList (addEdge edgeFrom g e) f =
      if edgeFrom e = f then adjList g f ++ [e] else adjList g f := by
  by_cases h : edgeFrom e = f
  · subst h
    simp [adjList, addEdge, lookupA_pushEntry_self]
  · simp [adjList, addEdge, lookupA_pushEntry_ne _ _ _ _ (Ne.symm h), h]

theorem admitEdges_adj (edgeFrom : E → Nat) (edgeP : E → RGraph N E → Bool)
    (buf : List E) (g : RGraph N E) (f : Nat) :
    adjList (admitEdges edgeFrom edgeP buf g).1 f =
      adjList g f ++
        ((admitEdges edgeFrom edgeP buf g).2.filterMap BEv.admittedEdge).filter
          (fun e2 => edgeFrom e2 == f) := by
  induction buf generalizing g with
  | nil => simp [admitEdges]
  | cons e rest ih =>
    by_cases hr : edgeP e g
    · have h1 : (admitEdges edgeFrom edgeP (e :: rest) g).1 =
          (admitEdges edgeFrom edgeP rest (addEdge edgeFrom g e)).1 := by
        simp [admitEdges, hr]
      have h2 : (admitEdges edgeFrom edgeP (e :: rest) g).2 =
          BEv.edgeCall e g true ::
            (admitEdges edgeFrom edgeP rest (addEdge edgeFrom g e)).2 := by
        simp [admitEdges, hr]
      rw [h1, h2, ih (addEdge edgeFrom g e), adjList_addEdge]
      simp only [List.filterMap_cons, BEv.admittedEdge]
      by_cases hf : edgeFrom e = f
      · simp [hf, List.filter_cons, List.append_assoc]
      · simp [hf, List.filter_cons]
    · have h1 : (admitEdges edgeFrom edgeP (e :: rest) g).1 =
          (admitEdges edgeFrom edgeP rest g).1 := by
        simp [admitEdges, hr]
      have h2 : (admitEdges edgeFrom edgeP (e :: rest) g).2 =
          BEv.edgeCall e g false :: (admitEdges edgeFrom edgeP rest g).2 := by
        simp [admitEdges, hr]
      rw [h1, h2, ih g]
      simp only [List.filterMap_cons, BEv.admittedEdge]

theorem admitEdges_spec (edgeFrom : E → Nat) (edgeP : E → RGraph N E → Bool)
    (buf : List E) (g : RGraph N E) :
    EdgeTrace edgeFrom edgeP g (admitEdges edgeFrom edgeP buf g).2
        (admitEdges edgeFrom edgeP buf g).1 ∧
    (admitEdges edgeFrom edgeP buf g).2.filterMap BEv.edgeEnt = buf ∧
    (admitEdges edgeFrom edgeP buf g).1.nodes = g.nodes ∧
    (∀ ev ∈ (admitEdges edgeFrom edgeP buf g).2, (BEv.ctxOf ev).nodes = g.nodes) := by
  induction buf generalizing g with
  | nil => exact ⟨EdgeTrace.nil g, rfl, rfl, by simp [admitEdges]⟩
  | cons e rest ih =>
    obtain ⟨iht, ihe, ihn, ihc⟩ := ih (if edgeP e g then addEdge edgeFrom g e else g)
    have hg2n : (if edgeP e g then addEdge edgeFrom g e else g).nodes = g.nodes := by
      by_cases hr : edgeP e g <;> simp [hr, addEdge_nodes]
    refine ⟨EdgeTrace.cons e g _ _ iht, ?_, ?_, ?_⟩
    · simp only [admitEdges, List.filterMap_cons, BEv.edgeEnt, ihe]
    · rw [show (admitEdges edgeFrom edgeP (e :: rest) g).1 =
          (admitEdges edgeFrom edgeP rest (if edgeP e g then addEdge edgeFrom g e else g)).1
          from rfl, ihn, hg2n]
    · intro ev hev
      rcases List.mem_cons.mp hev with h1 | h1
      · rw [h1]
        rfl
      · rw [ihc ev h1, hg2n]

/-- C2: `GraphBuilder::build` runs in two phases.  Its policy-call trace
splits as `t1 ++ t2` where `t1` is a node-admission pass from the empty
graph to an intermediate graph `gmid` (each sampled node gets exactly one
node-policy call against the graph built so far, and is inserted exactly
when admitted), `gmid` still has no edges, the node calls cover exactly
the sampled nodes, `t2` is an edge-admission pass from `gmid` to the
final graph over exactly the edges sampled across the entire pass (in
sampling order), every edge-policy call sees a context graph whose node
map is the final, complete one, and the final adjacency store holds
precisely the admitted edges grouped by source id in admission order. -/
theorem c2_builder_two_phase (σ Ctx N E : Type) (S : SamplerOps σ Ctx N E)
    (nodeId : N → Nat) (edgeFrom : E → Nat)
    (nodeP : N → RGraph N E → Bool) (edgeP : E → RGraph N E → Bool)
    (ctx : Ctx) (fuel : Nat) (s0 : σ) :
    ∃ t1 t2 gmid,
      (build S nodeId edgeFrom nodeP edgeP ctx fuel s0).2 = t1 ++ t2 ∧
      NodeTrace nodeId nodeP emptyRG t1 gmid ∧
      t1.filterMap BEv.nodeEnt =
        ((sampleBatches S ctx fuel s0).map Prod.fst).flatten ∧
      gmid.edges = [] ∧
      EdgeTrace edgeFrom edgeP gmid t2
        (build S nodeId edgeFrom nodeP edgeP ctx fuel s0).1 ∧
      t2.filterMap BEv.edgeEnt =
        ((sampleBatches S ctx fuel s0).map Prod.snd).flatten ∧
      (∀ ev ∈ t2, (BEv.ctxOf ev).nodes =
        (build S nodeId edgeFrom nodeP edgeP ctx fuel s0).1.nodes) ∧
      (∀ f, adjList (build S nodeId edgeFrom nodeP edgeP ctx fuel s0).1 f =
        (t2.filterMap BEv.admittedEdge).filter (fun e2 => edgeFrom e2 == f)) := by
  obtain ⟨bt, bb, be, bg⟩ := buildLoop_spec S nodeId nodeP ctx fuel s0 emptyRG
  obtain ⟨et, ee, en, ec⟩ := admitEdges_spec edgeFrom edgeP
    (buildLoop S nodeId nodeP ctx fuel s0 emptyRG).2.1
    (buildLoop S nodeId nodeP ctx fuel s0 emptyRG).1
  have hb1 : (build S nodeId edgeFrom nodeP edgeP ctx fuel s0).1 =
      (admitEdges edgeFrom edgeP (buildLoop S nodeId nodeP ctx fuel s0 emptyRG).2.1
        (buildLoop S nodeId nodeP ctx fuel s0 emptyRG).1).1 := rfl
  refine ⟨(buildLoop S nodeId nodeP ctx fuel s0 emptyRG).2.2,
    (admitEdges edgeFrom edgeP (buildLoop S nodeId nodeP ctx fuel s0 emptyRG).2.1
      (buildLoop S nodeId nodeP ctx fuel s0 emptyRG).1).2,
    (buildLoop S nodeId nodeP ctx fuel s0 emptyRG).1,
    rfl, bt, be, bg, et, ?_, ?_, ?_⟩
  · rw [ee, bb]
  · intro ev hev
    rw [hb1, ec ev hev]
    exact (en).symm
  · intro f
    rw [hb1, admitEdges_adj]
    have hadj : adjList (buildLoop S nodeId nodeP ctx fuel s0 emptyRG).1 f = [] := by
      show (lookupA f (buildLoop S nodeId nodeP ctx fuel s0 emptyRG).1.edges).getD [] = []
      rw [bg]
      rfl
    rw [hadj]
    rfl

end Hodos
